import Mathlib

/-!
The cfm mass utilities (`Util.cpp`) and the fragment tree node (`FragmentTreeNode.h`).

A shallow embedding of the two source files and the properties proved about them.

Conventions of the embedding.

* `double` values are exact rationals (`ℚ`) and the arithmetic on them is exact, except
  in `getMonoIsotopicMass_binary64`, which rounds every sum and product to binary64.
* The molecular structure (`RDKit::ROMol`) is seen through the calls the source makes
  on it: `getNumAtoms`, `getAtomWithIdx`, the atom iterator, and on an atom `getSymbol`,
  `getTotalNumHs` and `getProp`; its bonds are what the break machinery works on.
* `RDKit::PeriodicTable::getMostCommonIsotopeMass` is an external table and is a
  parameter of every function that consults it.
* `romol_ptr_t` is a shared pointer: `none` is the null pointer.
-/

namespace CFM

/-! ## Util.cpp -/

/-- Embeds `double getMassTol(double abs_tol, double ppm_tol, double mass)`. -/
def getMassTol (abs_tol ppm_tol mass : ℚ) : ℚ :=
  let mass_tol := (mass / 1000000) * ppm_tol
  if mass_tol < abs_tol then abs_tol else mass_tol

/-- An atom as the source observes it: `getSymbol()`, `getTotalNumHs()` (the number of
hydrogens attached to the atom that are not atoms of the structure themselves), and the
bag of named integer properties that `getProp` reads, the first entry under a name
being its value. -/
structure Atom where
  getSymbol : String
  getTotalNumHs : Nat
  props : List (String × Int) := []
  deriving DecidableEq, Repr

/-- A bond of a structure: the indices of its two atoms, the identities of the rings it
lies on (none for a bond outside every ring), whether a break has taken it out of the
structure (its index stays in use), and its bag of named integer properties. -/
structure Bond where
  beginAtomIdx : Nat
  endAtomIdx : Nat
  rings : List Nat := []
  broken : Bool := false
  props : List (String × Int) := []
  deriving DecidableEq, Repr

/-- A molecular structure: its atoms in index order and its bonds in index order. -/
structure ROMol where
  atoms : List Atom
  bonds : List Bond := []
  deriving DecidableEq, Repr

/-- Embeds `mol->getNumAtoms()`. -/
def ROMol.getNumAtoms (mol : ROMol) : Nat := mol.atoms.length

/-- Embeds `mol->getAtomWithIdx(i)` for an index below `getNumAtoms()`. -/
def ROMol.getAtomWithIdx (mol : ROMol) (i : Fin mol.getNumAtoms) : Atom := mol.atoms.get i

/-- The table `pt->getMostCommonIsotopeMass(symbol)`. -/
abbrev PeriodicTable := String → ℚ

/-- Embeds `double getMonoIsotopicMass(romol_ptr_t mol, bool addHPlus)`, on the structure the
pointer refers to. The `for` loop runs over the indices `0 .. natoms-1`. -/
def getMonoIsotopicMass (pt : PeriodicTable) (mol : ROMol) (addHPlus : Bool) : ℚ :=
  let natoms := mol.getNumAtoms
  let mass := (List.finRange natoms).foldl (fun mass i =>
    let atom := mol.getAtomWithIdx i
    let symbol := atom.getSymbol
    let mass := mass + pt symbol
    mass + (atom.getTotalNumHs : ℚ) * pt "H") 0
  if addHPlus then mass + pt "H" else mass

/-- What the mass computation reads off an atom: its symbol and its total hydrogen
count. -/
def Atom.formula (a : Atom) : String × Nat := (a.getSymbol, a.getTotalNumHs)

/-- The mass one atom contributes: its own isotope mass and that of its hydrogens. -/
def atomMass (pt : PeriodicTable) (a : Atom) : ℚ :=
  pt a.getSymbol + (a.getTotalNumHs : ℚ) * pt "H"

/-- The monoisotopic mass as the specification words it, with the mass added for the
extra proton given separately as `protonMass`. -/
def specMonoIsotopicMass (pt : PeriodicTable) (protonMass : ℚ) (mol : ROMol)
    (addHPlus : Bool) : ℚ :=
  (mol.atoms.map (atomMass pt)).sum + (if addHPlus then protonMass else 0)

/-- A fragment of the periodic table: the most common isotope masses of hydrogen and
carbon, in unified atomic mass units. -/
def sampleTable : PeriodicTable := fun symbol =>
  if symbol = "H" then 1.00782503207
  else if symbol = "C" then 12
  else 0

/-- The mass of the proton in unified atomic mass units. -/
def protonMass : ℚ := 1.007276466621

/-- Methane as a structure of one carbon atom carrying four hydrogens. -/
def methane : ROMol := { atoms := [{ getSymbol := "C", getTotalNumHs := 4 }] }

/-- Rounding of a rational to the nearest integer, a tie going to the even one. -/
def roundHalfEven (x : ℚ) : ℤ :=
  let f := ⌊x⌋
  if x - f < 1 / 2 then f
  else if 1 / 2 < x - f then f + 1
  else if f % 2 = 0 then f else f + 1

/-- The binary64 value (IEEE 754 `double`, round to nearest, ties to even) nearest to
`x`: `x` is rounded to a multiple of the spacing `2 ^ (e - 52)` of its binade
`2 ^ e <= |x| < 2 ^ (e + 1)`. Overflow and subnormal results are outside the model; atomic
masses and their sums are far from both. -/
def roundBinary64 (x : ℚ) : ℚ :=
  if x = 0 then 0
  else
    let ulp : ℚ := 2 ^ (Int.log 2 |x| - 52)
    roundHalfEven (x / ulp) * ulp

/-- Embeds `double getMonoIsotopicMass(romol_ptr_t mol, bool addHPlus)` once more, this
time with the arithmetic of `double`: every `+=` and every product is rounded to
binary64. The table `pt` holds doubles, and the hydrogen count converts to `double`
exactly. -/
def getMonoIsotopicMass_binary64 (pt : PeriodicTable) (mol : ROMol) (addHPlus : Bool) : ℚ :=
  let natoms := mol.getNumAtoms
  let mass := (List.finRange natoms).foldl (fun mass i =>
    let atom := mol.getAtomWithIdx i
    let symbol := atom.getSymbol
    let mass := roundBinary64 (mass + pt symbol)
    roundBinary64 (mass + roundBinary64 ((atom.getTotalNumHs : ℚ) * pt "H"))) 0
  if addHPlus then roundBinary64 (mass + pt "H") else mass

/-- The fragment `sampleTable` of the periodic table as the doubles the program holds:
each entry rounded to binary64. -/
def sampleTable64 : PeriodicTable := fun symbol => roundBinary64 (sampleTable symbol)

/-- A bare carbon atom: one atom, no hydrogens. -/
def bareCarbon : ROMol := { atoms := [{ getSymbol := "C", getTotalNumHs := 0 }] }

/-- The call `atom->getProp(key, res)` of RDKit on an integer property: the value left in
`res`, or `none` when the call throws. A property that is present is copied into `res`.
What the call does when the key is missing is RDKit's business and not in the source:
it is the parameter `onMissing`, applied to the value `res` held before the call. -/
def Atom.getProp (onMissing : Int → Option Int) (atom : Atom) (key : String) (res : Int) :
    Option Int :=
  match atom.props.lookup key with
  | some v => some v
  | none => onMissing res

/-- The loop of `getLabeledAtom` from the atom at iterator position `ai` on, `atoms`
being the atoms not yet visited: the values of `root` and of the iterator when the loop
is left (by `break` or at `endAtoms()`), or `none` when `getProp` throws. -/
def getLabeledAtom.loop (onMissing : Int → Option Int) (label : String) :
    List Atom → Nat → Int → Option (Int × Nat)
  | [], ai, root => some (root, ai)
  | atom :: rest, ai, root =>
    match atom.getProp onMissing label root with
    | none => none
    | some root =>
      if root ≠ 0 then some (root, ai)
      else getLabeledAtom.loop onMissing label rest (ai + 1) root

/-- Embeds `RDKit::Atom *getLabeledAtom( romol_ptr_t mol, const char *label )`, on the
structure the pointer refers to. The atom returned is named by its index; `some none` is
the `NULL` result and `none` an exception leaving the function. -/
def getLabeledAtom (onMissing : Int → Option Int) (mol : ROMol) (label : String) :
    Option (Option Nat) :=
  match getLabeledAtom.loop onMissing label mol.atoms 0 0 with
  | none => none
  | some (root, ai) => if root ≠ 0 then some (some ai) else some none

/-- The class `Break`: `int ring_break; int bond_idxs[2]; int ring_idx;`. -/
structure Break where
  ring_break : Int
  bond_idxs : Int × Int
  ring_idx : Int
  deriving DecidableEq, Repr

/-- Modelled from the spec: the body of the constructor `Break( int bond_idx )`, which the
header only declares. A non-ring break is built from a single bond index; the flag is
false and the second bond index and the ring index are unused, so whatever they hold is
given by `unused_bond` and `unused_ring`. -/
def Break.ctor_bond (bond_idx : Int) (unused_bond unused_ring : Int) : Break :=
  { ring_break := 0, bond_idxs := (bond_idx, unused_bond), ring_idx := unused_ring }

/-- Modelled from the spec: the body of the constructor
`Break( int bond1_idx, int bond2_idx, int ring_idx )`, which the header only declares.
A ring break is built from two bond indices and a ring index, with the flag true. -/
def Break.ctor_ring (bond1_idx bond2_idx ring_idx : Int) : Break :=
  { ring_break := 1, bond_idxs := (bond1_idx, bond2_idx), ring_idx := ring_idx }

/-- Embeds `int getBondIdx() const { return bond_idxs[0]; }`: the value read and the receiver
after the call. -/
def Break.getBondIdx (self : Break) : Int × Break := (self.bond_idxs.1, self)

/-- Embeds `int getSecondBondIdx() const { return bond_idxs[1]; }`. -/
def Break.getSecondBondIdx (self : Break) : Int × Break := (self.bond_idxs.2, self)

/-- Embeds `int isRingBreak() const { return ring_break; }`. -/
def Break.isRingBreak (self : Break) : Int × Break := (self.ring_break, self)

/-- Embeds `int getRingIdx() const { return ring_idx; }`. -/
def Break.getRingIdx (self : Break) : Int × Break := (self.ring_idx, self)

/-- The conversion of a C++ `bool` to `int` made by a comparison such as `x == true`. -/
def boolToInt (b : Bool) : Int := if b then 1 else 0

/-- The shared pointer `romol_ptr_t`; `none` is the null pointer. -/
abbrev romol_ptr_t := Option ROMol

/-! ### The structure operations the break machinery consumes

The bodies of `generateBreaks`, `applyBreak`, `undoBreak` and `allocatedCtdToFragment` are
not in the header; they and the structure operations they rest on are modelled from the
specification. -/

/-- Modelled from the spec: "recording, per affected atom, a fragment-membership label".
The label is put in front of the atom's bag, where a lookup finds it first; what the bag
held stays underneath, so that clearing the label gives back the exact bag of before, as
the spec requires of `undoBreak`. -/
def recordLabel (key : String) (v : Int) (props : List (String × Int)) :
    List (String × Int) :=
  (key, v) :: props

/-- Modelled from the spec: "labels cleared": the label recorded last under the name is
taken out of the bag, and nothing else. -/
def clearLabel (key : String) : List (String × Int) → List (String × Int)
  | [] => []
  | p :: rest => if p.1 == key then rest else p :: clearLabel key rest

/-- Records a label on an atom. -/
def Atom.recordLabel (atom : Atom) (key : String) (v : Int) : Atom :=
  { atom with props := CFM.recordLabel key v atom.props }

/-- Clears a label of an atom. -/
def Atom.clearLabel (atom : Atom) (key : String) : Atom :=
  { atom with props := CFM.clearLabel key atom.props }

/-- Marks the bond with index `idx` as taken out (`true`) or put back (`false`); every
other bond, and every index, stays as it is. -/
def markBroken (v : Bool) : Nat → List Bond → List Bond
  | _, [] => []
  | 0, bond :: rest => { bond with broken := v } :: rest
  | idx + 1, bond :: rest => bond :: markBroken v idx rest

/-- Modelled from the spec: the missing structure operation "remove/re-insert a bond by
index", bond indices being stable. -/
def ROMol.setBroken (mol : ROMol) (idx : Nat) (v : Bool) : ROMol :=
  { mol with bonds := markBroken v idx mol.bonds }

/-- The atoms joined to atom `a` by a bond that is still in the structure. -/
def neighbours (bonds : List Bond) (a : Nat) : List Nat :=
  bonds.filterMap (fun bond =>
    if bond.broken then none
    else if bond.beginAtomIdx = a then some bond.endAtomIdx
    else if bond.endAtomIdx = a then some bond.beginAtomIdx
    else none)

/-- Flood fill over the bonds still in the structure: `fuel` rounds of adding the
neighbours of the atoms seen so far. -/
def floodFill (bonds : List Bond) : Nat → List Nat → List Nat
  | 0, seen => seen
  | fuel + 1, seen => floodFill bonds fuel (seen ++ seen.flatMap (neighbours bonds)).dedup

/-- The atoms connected to atom `start`; as many rounds as there are atoms reach them
all. -/
def ROMol.connected (mol : ROMol) (start : Nat) : List Nat :=
  floodFill mol.bonds mol.atoms.length [start]

/-- Records the label `FragIdx` with the value `frag` on the atoms whose index is in
`side`; `idx` is the index of the first atom of the list. -/
def labelAtoms (side : List Nat) (frag : Int) : Nat → List Atom → List Atom
  | _, [] => []
  | idx, atom :: rest =>
    (if idx ∈ side then atom.recordLabel "FragIdx" frag else atom)
      :: labelAtoms side frag (idx + 1) rest

/-- Clears the label `FragIdx` on the atoms whose index is in `side`; `idx` is the index
of the first atom of the list. -/
def unlabelAtoms (side : List Nat) : Nat → List Atom → List Atom
  | _, [] => []
  | idx, atom :: rest =>
    (if idx ∈ side then atom.clearLabel "FragIdx" else atom)
      :: unlabelAtoms side (idx + 1) rest

/-- Modelled from the spec: the body of the helper `allocatedCtdToFragment`, which the
header only declares ("Used to produce FragIdx labels for a broken molecule"): it
flood-fills connectivity from the atom and records the fragment-membership label
`FragIdx` on every atom reached. The label value `frag` says which side of the cut the
atom is on. -/
def ROMol.allocatedCtdToFragment (mol : ROMol) (atom : Nat) (frag : Int) : ROMol :=
  { mol with atoms := labelAtoms (mol.connected atom) frag 0 mol.atoms }

/-- Modelled from the spec: the clearing of the labels of one side of the cut, the
counterpart of `allocatedCtdToFragment` in `undoBreak`: the same flood fill from the atom,
run while the bond(s) are still out, clears the label on every atom reached. -/
def ROMol.clearCtdFragment (mol : ROMol) (atom : Nat) : ROMol :=
  { mol with atoms := unlabelAtoms (mol.connected atom) 0 mol.atoms }

/-- Modelled from the spec: the test of `generateBreaks` that a pair of ring bonds
"disconnects the ring into two components": taking out the bonds `i` and `j` separates
the two atoms of bond `i`. -/
def ROMol.disconnects (mol : ROMol) (i j : Nat) : Bool :=
  match mol.bonds[i]? with
  | none => false
  | some bond =>
    !(((mol.setBroken i true).setBroken j true).connected bond.beginAtomIdx).contains
      bond.endAtomIdx

/-- The first ring that two bonds both lie on. -/
def commonRing (b1 b2 : Bond) : Option Nat :=
  b1.rings.find? (fun r => b2.rings.contains r)

/-- Modelled from the spec: the part of `generateBreaks` for one bond, as in its section
4.2. The breaks that start at bond `i`: none when the bond is already broken; the
single-bond break when it is on no ring; otherwise one ring break for every later bond
`j` of a same ring, not broken, such that taking both out disconnects the ring. The
fields a non-ring break leaves unused hold `unused`. -/
def ROMol.breaksOfBond (mol : ROMol) (unused : Int × Int) (i : Nat) (bond : Bond) :
    List Break :=
  if bond.broken then []
  else if bond.rings = [] then [Break.ctor_bond i unused.1 unused.2]
  else (List.range mol.bonds.length).filterMap (fun j =>
    if i < j then
      match mol.bonds[j]? with
      | none => none
      | some other =>
        if other.broken then none
        else match commonRing bond other with
          | none => none
          | some r => if mol.disconnects i j then some (Break.ctor_ring i j r) else none
    else none)

/-- Modelled from the spec: what `applyBreak` does to the ion, the body of `applyBreak`
not being in the header: the bond(s) named by the break are taken out,
and the atoms on the two sides of the cut are labelled, `FragIdx` 0 on the side of the
first atom of the first bond and 1 on the side of its second atom. -/
def ROMol.applyBreak (mol : ROMol) (brk : Break) : ROMol :=
  let cut := mol.setBroken brk.getBondIdx.1.toNat true
  let cut :=
    if brk.isRingBreak.1 ≠ 0 then cut.setBroken brk.getSecondBondIdx.1.toNat true else cut
  match mol.bonds[brk.getBondIdx.1.toNat]? with
  | none => cut
  | some bond =>
    (cut.allocatedCtdToFragment bond.beginAtomIdx 0).allocatedCtdToFragment
      bond.endAtomIdx 1

/-- Modelled from the spec: what `undoBreak` does to the ion, the body of `undoBreak` not
being in the header: with the bond(s) still out, the labels that `applyBreak` recorded on
the two sides of the cut are cleared, the side of the second atom first; then the
bond(s) named by the break are put back. -/
def ROMol.undoBreak (mol : ROMol) (brk : Break) : ROMol :=
  let cleared :=
    match mol.bonds[brk.getBondIdx.1.toNat]? with
    | none => mol
    | some bond =>
      (mol.clearCtdFragment bond.endAtomIdx).clearCtdFragment bond.beginAtomIdx
  let joined :=
    if brk.isRingBreak.1 ≠ 0 then cleared.setBroken brk.getSecondBondIdx.1.toNat false
    else cleared
  joined.setBroken brk.getBondIdx.1.toNat false

/-- What membership in `generateBreaks` gives about a break: its first bond is a bond of
the structure, its bonds are not yet broken, and a ring break names two different
bonds. -/
def ROMol.Unbroken (mol : ROMol) (brk : Break) : Prop :=
  (∃ bond, mol.bonds[brk.getBondIdx.1.toNat]? = some bond ∧ bond.broken = false)
  ∧ (brk.isRingBreak.1 ≠ 0 →
      brk.getSecondBondIdx.1.toNat ≠ brk.getBondIdx.1.toNat
      ∧ ∀ bond, mol.bonds[brk.getSecondBondIdx.1.toNat]? = some bond → bond.broken = false)

/-- The class `FragmentTreeNode`, its fields in declaration order, the private
`tmp_thetas` last. -/
inductive FragmentTreeNode where
  | mk (children : List FragmentTreeNode) (ion : romol_ptr_t) (nl : romol_ptr_t)
      (ion_free_epairs : Int) (depth : Int) (tmp_thetas : List ℚ)

namespace FragmentTreeNode

/-- Field `std::vector<FragmentTreeNode> children`. -/
def children : FragmentTreeNode → List FragmentTreeNode
  | mk c _ _ _ _ _ => c

/-- Field `romol_ptr_t ion`. -/
def ion : FragmentTreeNode → romol_ptr_t
  | mk _ i _ _ _ _ => i

/-- Field `romol_ptr_t nl`. -/
def nl : FragmentTreeNode → romol_ptr_t
  | mk _ _ n _ _ _ => n

/-- Field `int ion_free_epairs`. -/
def ion_free_epairs : FragmentTreeNode → Int
  | mk _ _ _ e _ _ => e

/-- Field `int depth`. -/
def depth : FragmentTreeNode → Int
  | mk _ _ _ _ d _ => d

/-- Field `std::vector<double> tmp_thetas`. -/
def tmp_thetas : FragmentTreeNode → List ℚ
  | mk _ _ _ _ _ t => t

/-- Embeds `FragmentTreeNode(){}`: the vectors and the two pointers are default-constructed
(empty, null); the two `int` members are left uninitialised, so whatever they hold is
given by `junk_ep` and `junk_depth`. -/
def ctor_default (junk_ep junk_depth : Int) : FragmentTreeNode :=
  mk [] none none junk_ep junk_depth []

/-- Embeds `FragmentTreeNode( romol_ptr_t an_ion, romol_ptr_t a_nl, int a_ion_free_ep, int a_depth )`. -/
def ctor_ion_nl (an_ion a_nl : romol_ptr_t) (a_ion_free_ep a_depth : Int) :
    FragmentTreeNode :=
  mk [] an_ion a_nl a_ion_free_ep a_depth []

/-- Embeds `FragmentTreeNode( romol_ptr_t an_ion, int a_ion_free_ep, int a_depth )`: `nl` is not
in the initialiser list and is default-constructed (null). -/
def ctor_ion (an_ion : romol_ptr_t) (a_ion_free_ep a_depth : Int) : FragmentTreeNode :=
  mk [] an_ion none a_ion_free_ep a_depth []

/-- Embeds `std::vector<double>::resize(n)`: cut to `n` entries, or filled up to `n` entries with
value-initialised doubles (`0.0`). -/
def vector_resize (v : List ℚ) (n : Nat) : List ℚ :=
  v.take n ++ List.replicate (n - v.length) 0

/-- Embeds `void setTmpTheta( double val, int energy )` for an energy level `energy >= 0`, the
values the interface is specified for; `energy + 1` is taken without overflow. -/
def setTmpTheta (self : FragmentTreeNode) (val : ℚ) (energy : Nat) : FragmentTreeNode :=
  match self with
  | mk c i n e d tmp_thetas =>
    let tmp_thetas :=
      if tmp_thetas.length < energy + 1 then vector_resize tmp_thetas (energy + 1)
      else tmp_thetas
    mk c i n e d (tmp_thetas.set energy val)

/-- Embeds `double getTmpTheta( int energy ) const { return tmp_thetas[energy]; }` for
`energy >= 0`. The index is not checked: `none` stands for the read past the end. -/
def getTmpTheta (self : FragmentTreeNode) (energy : Nat) : Option ℚ :=
  self.tmp_thetas[energy]?

/-- Embeds `bool hasTmpThetas() const { return tmp_thetas.size() > 0; }`. -/
def hasTmpThetas (self : FragmentTreeNode) : Bool :=
  decide (self.tmp_thetas.length > 0)

/-- Embeds `getAllTmpThetas()`: the backing sequence itself. -/
def getAllTmpThetas (self : FragmentTreeNode) : List ℚ := self.tmp_thetas

/-- A run of `setTmpTheta(val, energy)` calls, in order, on one node. -/
def setTmpThetas (self : FragmentTreeNode) (calls : List (ℚ × Nat)) : FragmentTreeNode :=
  calls.foldl (fun node call => node.setTmpTheta call.1 call.2) self

/-- The nodes that come out of one of the three public constructors. -/
inductive Constructed : FragmentTreeNode → Prop
  | default (junk_ep junk_depth : Int) : Constructed (ctor_default junk_ep junk_depth)
  | ion_nl (an_ion a_nl : romol_ptr_t) (a_ion_free_ep a_depth : Int) :
      Constructed (ctor_ion_nl an_ion a_nl a_ion_free_ep a_depth)
  | ion (an_ion : romol_ptr_t) (a_ion_free_ep a_depth : Int) :
      Constructed (ctor_ion an_ion a_ion_free_ep a_depth)

/-- Modelled from the spec: the body of `generateBreaks(output)`, which the header only
declares. For every bond of the ion not yet broken it appends the single-bond break when
the bond is on no ring, and otherwise one ring break per pair of bonds of a same ring
whose removal disconnects the ring, each pair once. A null ion yields nothing. -/
def generateBreaks (self : FragmentTreeNode) (output : List Break) (unused : Int × Int) :
    List Break :=
  match self.ion with
  | none => output
  | some mol => output ++ mol.bonds.enum.flatMap (fun ib => mol.breaksOfBond unused ib.1 ib.2)

/-- Modelled from the spec: the body of `applyBreak(brk)`, which the header only
declares ("Record a break in the properties of the ion"). It mutates the ion in place:
the bond(s) named by the break are removed and the fragment-membership labels recorded.
Nothing else of the node changes; a null ion is left as it is. -/
def applyBreak (self : FragmentTreeNode) (brk : Break) : FragmentTreeNode :=
  match self with
  | mk c (some mol) n e d t => mk c (some (mol.applyBreak brk)) n e d t
  | mk c none n e d t => mk c none n e d t

/-- Modelled from the spec: the body of `undoBreak(brk)`, which the header only declares
("Undo any changes made during applyBreak"): the bond(s) are re-inserted and the labels
cleared. -/
def undoBreak (self : FragmentTreeNode) (brk : Break) : FragmentTreeNode :=
  match self with
  | mk c (some mol) n e d t => mk c (some (mol.undoBreak brk)) n e d t
  | mk c none n e d t => mk c none n e d t

/-- Propane as a chain of three carbons joined by the bonds 0 and 1, none on a ring. -/
def propane : ROMol :=
  { atoms := [{ getSymbol := "C", getTotalNumHs := 3 },
              { getSymbol := "C", getTotalNumHs := 2 },
              { getSymbol := "C", getTotalNumHs := 3 }],
    bonds := [{ beginAtomIdx := 0, endAtomIdx := 1 }, { beginAtomIdx := 1, endAtomIdx := 2 }] }

/-- Propane whose first carbon carries a property named `FragIdx` before any break is
applied. -/
def propaneLabelled : ROMol :=
  { atoms := [{ getSymbol := "C", getTotalNumHs := 3, props := [("FragIdx", 1)] },
              { getSymbol := "C", getTotalNumHs := 2 },
              { getSymbol := "C", getTotalNumHs := 3 }],
    bonds := [{ beginAtomIdx := 0, endAtomIdx := 1 }, { beginAtomIdx := 1, endAtomIdx := 2 }] }

end FragmentTreeNode

/-! ### Lemmas on the mass loop -/

theorem foldl_add_eq_sum (g : Atom → ℚ) (l : List Atom) (init : ℚ) :
    l.foldl (fun m a => m + g a) init = init + (l.map g).sum := by
  induction l generalizing init with
  | nil => simp
  | cons a t ih => simp [List.foldl_cons, ih, add_assoc]

theorem getMonoIsotopicMass_eq_sum (pt : PeriodicTable) (mol : ROMol) (addHPlus : Bool) :
    getMonoIsotopicMass pt mol addHPlus
      = (mol.atoms.map (atomMass pt)).sum + (if addHPlus then pt "H" else 0) := by
  have hloop : (List.finRange mol.getNumAtoms).foldl (fun mass i =>
      mass + pt (mol.getAtomWithIdx i).getSymbol
        + ((mol.getAtomWithIdx i).getTotalNumHs : ℚ) * pt "H") 0
      = (mol.atoms.map (atomMass pt)).sum := by
    have h1 : (List.finRange mol.getNumAtoms).foldl (fun mass i =>
        mass + pt (mol.getAtomWithIdx i).getSymbol
          + ((mol.getAtomWithIdx i).getTotalNumHs : ℚ) * pt "H") 0
        = ((List.finRange mol.atoms.length).map mol.atoms.get).foldl
            (fun m a => m + atomMass pt a) 0 := by
      rw [List.foldl_map]
      simp only [ROMol.getNumAtoms, ROMol.getAtomWithIdx, atomMass, add_assoc]
    rw [h1, List.finRange_map_get, foldl_add_eq_sum, zero_add]
  unfold getMonoIsotopicMass
  simp only [hloop]
  split <;> simp

theorem atomMass_eq_formula (pt : PeriodicTable) (a : Atom) :
    atomMass pt a = pt a.formula.1 + (a.formula.2 : ℚ) * pt "H" := rfl

theorem sum_atomMass_eq_formula (pt : PeriodicTable) (l : List Atom) :
    (l.map (atomMass pt)).sum
      = ((l.map Atom.formula).map (fun f => pt f.1 + (f.2 : ℚ) * pt "H")).sum := by
  rw [List.map_map]
  rfl

theorem clearLabel_recordLabel (key : String) (v : Int) (props : List (String × Int)) :
    clearLabel key (recordLabel key v props) = props := by
  simp [clearLabel, recordLabel]

theorem unlabelAtoms_labelAtoms (side : List Nat) (frag : Int) (idx : Nat)
    (atoms : List Atom) :
    unlabelAtoms side idx (labelAtoms side frag idx atoms) = atoms := by
  induction atoms generalizing idx with
  | nil => rfl
  | cons atom rest ih =>
    simp only [labelAtoms, unlabelAtoms, ih]
    congr 1
    by_cases h : idx ∈ side
    · simp only [h, if_true, Atom.clearLabel, Atom.recordLabel, clearLabel_recordLabel]
    · simp only [h, if_false]

theorem length_labelAtoms (side : List Nat) (frag : Int) (idx : Nat) (atoms : List Atom) :
    (labelAtoms side frag idx atoms).length = atoms.length := by
  induction atoms generalizing idx with
  | nil => rfl
  | cons atom rest ih => simp only [labelAtoms, List.length_cons, ih]

theorem markBroken_false_true (idx : Nat) (bonds : List Bond)
    (h : ∀ bond, bonds[idx]? = some bond → bond.broken = false) :
    markBroken false idx (markBroken true idx bonds) = bonds := by
  induction bonds generalizing idx with
  | nil => cases idx <;> rfl
  | cons bond rest ih =>
    cases idx with
    | zero =>
      have hb := h bond (by simp)
      cases bond
      simp only at hb
      subst hb
      rfl
    | succ idx =>
      simp only [markBroken]
      rw [ih idx (fun b hb => h b (by simpa using hb))]

theorem getElem?_markBroken_ne (v : Bool) (idx j : Nat) (bonds : List Bond) (h : j ≠ idx) :
    (markBroken v idx bonds)[j]? = bonds[j]? := by
  induction bonds generalizing idx j with
  | nil => cases idx <;> rfl
  | cons bond rest ih =>
    cases idx with
    | zero =>
      cases j with
      | zero => exact absurd rfl h
      | succ j => simp [markBroken]
    | succ idx =>
      cases j with
      | zero => simp [markBroken]
      | succ j =>
        simp only [markBroken, List.getElem?_cons_succ]
        exact ih idx j (fun e => h (by rw [e]))

theorem unbroken_of_mem_breaksOfBond (mol : ROMol) (unused : Int × Int) (i : Nat)
    (bond : Bond) (brk : Break) (hi : mol.bonds[i]? = some bond)
    (hbrk : brk ∈ mol.breaksOfBond unused i bond) : mol.Unbroken brk := by
  unfold ROMol.breaksOfBond at hbrk
  by_cases hb : bond.broken = true
  · simp [hb] at hbrk
  · have hb' : bond.broken = false := by simpa using hb
    rw [if_neg hb] at hbrk
    by_cases hr : bond.rings = []
    · rw [if_pos hr, List.mem_singleton] at hbrk
      subst hbrk
      refine ⟨⟨bond, ?_, hb'⟩, ?_⟩
      · simp only [Break.getBondIdx, Break.ctor_bond, Int.toNat_ofNat]
        exact hi
      · intro hring
        exact absurd rfl hring
    · rw [if_neg hr, List.mem_filterMap] at hbrk
      obtain ⟨j, -, hj⟩ := hbrk
      by_cases hij : i < j
      · rw [if_pos hij] at hj
        cases hoj : mol.bonds[j]? with
        | none => rw [hoj] at hj; exact absurd hj (by simp)
        | some other =>
          rw [hoj] at hj
          by_cases hob : other.broken = true
          · simp [hob] at hj
          · have hob' : other.broken = false := by simpa using hob
            simp only [] at hj
            rw [if_neg hob] at hj
            cases hcr : commonRing bond other with
            | none => rw [hcr] at hj; exact absurd hj (by simp)
            | some r =>
              rw [hcr] at hj
              simp only [] at hj
              by_cases hd : mol.disconnects i j = true
              · rw [if_pos hd] at hj
                have hj := (Option.some.inj hj).symm
                subst hj
                refine ⟨⟨bond, ?_, hb'⟩, ?_⟩
                · simp only [Break.getBondIdx, Break.ctor_ring, Int.toNat_ofNat]
                  exact hi
                · intro _
                  simp only [Break.getBondIdx, Break.getSecondBondIdx, Break.ctor_ring,
                    Int.toNat_ofNat]
                  refine ⟨Nat.ne_of_gt hij, ?_⟩
                  intro b hbnd
                  rw [hoj] at hbnd
                  rw [← Option.some.inj hbnd]
                  exact hob'
              · simp [hd] at hj
      · rw [if_neg hij] at hj
        exact absurd hj (by simp)

theorem length_markBroken (v : Bool) (idx : Nat) (bonds : List Bond) :
    (markBroken v idx bonds).length = bonds.length := by
  induction bonds generalizing idx with
  | nil => cases idx <;> rfl
  | cons bond rest ih =>
    cases idx with
    | zero => rfl
    | succ idx => simp only [markBroken, List.length_cons, ih]

theorem getElem?_markBroken_self (v : Bool) (idx : Nat) (bonds : List Bond) :
    (markBroken v idx bonds)[idx]? = bonds[idx]?.map (fun bond => { bond with broken := v }) := by
  induction bonds generalizing idx with
  | nil => cases idx <;> rfl
  | cons bond rest ih =>
    cases idx with
    | zero => simp [markBroken]
    | succ idx =>
      simp only [markBroken, List.getElem?_cons_succ]
      exact ih idx

/-- The bonds of the ion once the bond(s) of a break are taken out. -/
theorem bonds_applyBreak (mol : ROMol) (brk : Break) :
    (mol.applyBreak brk).bonds
      = if brk.isRingBreak.1 ≠ 0
          then markBroken true brk.getSecondBondIdx.1.toNat
            (markBroken true brk.getBondIdx.1.toNat mol.bonds)
          else markBroken true brk.getBondIdx.1.toNat mol.bonds := by
  unfold ROMol.applyBreak
  cases mol.bonds[brk.getBondIdx.1.toNat]? with
  | none =>
    simp only [ROMol.setBroken]
    split <;> rfl
  | some bond =>
    simp only [ROMol.allocatedCtdToFragment, ROMol.setBroken]
    split <;> rfl

/-- The atoms of the ion once the labels of a break are recorded. -/
theorem atoms_applyBreak (mol : ROMol) (brk : Break) (bond : Bond)
    (hbond : mol.bonds[brk.getBondIdx.1.toNat]? = some bond) :
    (mol.applyBreak brk).atoms
      = labelAtoms
          (floodFill (mol.applyBreak brk).bonds mol.atoms.length [bond.endAtomIdx]) 1 0
          (labelAtoms
            (floodFill (mol.applyBreak brk).bonds mol.atoms.length [bond.beginAtomIdx]) 0 0
            mol.atoms) := by
  rw [bonds_applyBreak]
  unfold ROMol.applyBreak
  rw [hbond]
  simp only [ROMol.allocatedCtdToFragment, ROMol.connected, ROMol.setBroken,
    length_labelAtoms]
  split <;> rfl

theorem ROMol.undo_apply_eq (mol : ROMol) (brk : Break) (hbrk : mol.Unbroken brk) :
    (mol.applyBreak brk).undoBreak brk = mol := by
  obtain ⟨⟨bond, hbond, hunbroken⟩, h2⟩ := hbrk
  have h1 : ∀ b, mol.bonds[brk.getBondIdx.1.toNat]? = some b → b.broken = false := by
    intro b hb
    rw [hbond] at hb
    rw [← Option.some.inj hb]
    exact hunbroken
  -- the first bond of the break, as the broken ion holds it
  have hcut : (mol.applyBreak brk).bonds[brk.getBondIdx.1.toNat]?
      = some { bond with broken := true } := by
    rw [bonds_applyBreak]
    by_cases hring : brk.isRingBreak.1 ≠ 0
    · rw [if_pos hring, getElem?_markBroken_ne _ _ _ _ (fun e => (h2 hring).1 e.symm),
        getElem?_markBroken_self, hbond]
      rfl
    · rw [if_neg hring, getElem?_markBroken_self, hbond]
      rfl
  -- the labels are cleared
  have hatoms : ((((mol.applyBreak brk).clearCtdFragment bond.endAtomIdx).clearCtdFragment
      bond.beginAtomIdx)).atoms = mol.atoms := by
    simp only [ROMol.clearCtdFragment, ROMol.connected]
    rw [atoms_applyBreak mol brk bond hbond]
    simp only [length_labelAtoms, unlabelAtoms_labelAtoms]
  have hbonds0 : ((((mol.applyBreak brk).clearCtdFragment bond.endAtomIdx).clearCtdFragment
      bond.beginAtomIdx)).bonds = (mol.applyBreak brk).bonds := rfl
  -- the bonds are put back
  have hfinal : markBroken false brk.getBondIdx.1.toNat
      (if brk.isRingBreak.1 ≠ 0
        then markBroken false brk.getSecondBondIdx.1.toNat (mol.applyBreak brk).bonds
        else (mol.applyBreak brk).bonds) = mol.bonds := by
    rw [bonds_applyBreak]
    by_cases hring : brk.isRingBreak.1 ≠ 0
    · obtain ⟨hne, hsecond⟩ := h2 hring
      rw [if_pos hring, if_pos hring, markBroken_false_true, markBroken_false_true _ _ h1]
      intro b hb
      rw [getElem?_markBroken_ne _ _ _ _ hne] at hb
      exact hsecond b hb
    · rw [if_neg hring, if_neg hring, markBroken_false_true _ _ h1]
  have hundo : ((mol.applyBreak brk).undoBreak brk).atoms = mol.atoms
      ∧ ((mol.applyBreak brk).undoBreak brk).bonds = mol.bonds := by
    unfold ROMol.undoBreak
    rw [hcut]
    simp only [ROMol.setBroken]
    constructor
    · rw [← hatoms]
      split <;> rfl
    · rw [← hfinal, ← hbonds0]
      split <;> rfl
  cases hm : (mol.applyBreak brk).undoBreak brk
  cases mol
  rw [hm] at hundo
  simp only at hundo
  rw [hundo.1, hundo.2]

theorem unbroken_of_mem_generateBreaks (node : FragmentTreeNode) (mol : ROMol)
    (unused : Int × Int) (brk : Break) (hion : node.ion = some mol)
    (hbrk : brk ∈ node.generateBreaks [] unused) : mol.Unbroken brk := by
  unfold FragmentTreeNode.generateBreaks at hbrk
  rw [hion] at hbrk
  simp only [List.nil_append, List.mem_flatMap] at hbrk
  obtain ⟨ib, hmem, hb⟩ := hbrk
  exact unbroken_of_mem_breaksOfBond mol unused ib.1 ib.2 brk
    (List.mem_enum_iff_getElem?.mp hmem) hb

/-! ### Lemmas on binary64 rounding -/

theorem roundHalfEven_of_lt_half (x : ℚ) (f : ℤ) (h1 : (f : ℚ) ≤ x) (h2 : x - f < 1 / 2) :
    roundHalfEven x = f := by
  have hf : ⌊x⌋ = f := by
    rw [Int.floor_eq_iff]
    constructor
    · exact h1
    · linarith
  simp only [roundHalfEven, hf, h2, if_true]

theorem roundHalfEven_of_gt_half (x : ℚ) (f : ℤ) (h1 : x < f + 1) (h2 : 1 / 2 < x - f) :
    roundHalfEven x = f + 1 := by
  have hf : ⌊x⌋ = f := by
    rw [Int.floor_eq_iff]
    constructor
    · linarith
    · exact h1
  have h3 : ¬ (x - f < 1 / 2) := not_lt.mpr (le_of_lt h2)
  simp only [roundHalfEven, hf, h3, h2, if_true, if_false]

theorem roundBinary64_of_binade (x : ℚ) (e : ℤ) (hlo : (2 : ℚ) ^ e ≤ x)
    (hhi : x < (2 : ℚ) ^ (e + 1)) :
    roundBinary64 x = roundHalfEven (x / 2 ^ (e - 52)) * 2 ^ (e - 52) := by
  have hpos : 0 < x := lt_of_lt_of_le (zpow_pos (by norm_num) e) hlo
  have hlog : Int.log 2 |x| = e := by
    rw [abs_of_pos hpos]
    apply le_antisymm
    · have := (Int.lt_zpow_iff_log_lt (R := ℚ) (b := 2) (by norm_num) hpos (x := e + 1)).mp
        (by exact_mod_cast hhi)
      omega
    · exact (Int.zpow_le_iff_le_log (R := ℚ) (b := 2) (by norm_num) hpos).mp
        (by exact_mod_cast hlo)
  simp only [roundBinary64, hlog, if_neg (ne_of_gt hpos)]

theorem roundBinary64_zero : roundBinary64 0 = 0 := by
  simp [roundBinary64]

theorem roundBinary64_twelve : roundBinary64 12 = 12 := by
  rw [roundBinary64_of_binade _ 3 (by norm_num) (by norm_num),
    roundHalfEven_of_lt_half _ (12 * 2 ^ 49) (by norm_num) (by norm_num)]
  norm_num

theorem sampleTable64_H : sampleTable64 "H" = 4538840438885110 / 2 ^ 52 := by
  have h : sampleTable "H" = 1.00782503207 := by simp [sampleTable]
  rw [sampleTable64, h, roundBinary64_of_binade _ 0 (by norm_num) (by norm_num),
    roundHalfEven_of_lt_half _ 4538840438885110 (by norm_num) (by norm_num)]
  norm_num

theorem sampleTable64_C : sampleTable64 "C" = 12 := by
  have h : sampleTable "C" = 12 := by simp [sampleTable]
  rw [sampleTable64, h, roundBinary64_twelve]

theorem roundBinary64_twelve_add_H :
    roundBinary64 (12 + 4538840438885110 / 2 ^ 52) = 7322754495916383 / 2 ^ 49 := by
  rw [roundBinary64_of_binade _ 3 (by norm_num) (by norm_num),
    roundHalfEven_of_gt_half _ 7322754495916382 (by norm_num) (by norm_num)]
  norm_num

theorem foldl_finRange_atoms (mol : ROMol) (step : ℚ → Atom → ℚ) (init : ℚ) :
    (List.finRange mol.getNumAtoms).foldl (fun mass i => step mass (mol.getAtomWithIdx i))
        init
      = mol.atoms.foldl step init := by
  have h : (List.finRange mol.getNumAtoms).foldl
      (fun mass i => step mass (mol.getAtomWithIdx i)) init
      = ((List.finRange mol.atoms.length).map mol.atoms.get).foldl step init := by
    rw [List.foldl_map]
    rfl
  rw [h, List.finRange_map_get]

theorem getMonoIsotopicMass_binary64_eq (pt : PeriodicTable) (mol : ROMol)
    (addHPlus : Bool) :
    getMonoIsotopicMass_binary64 pt mol addHPlus
      = if addHPlus
          then roundBinary64 (mol.atoms.foldl (fun mass atom =>
            roundBinary64 (roundBinary64 (mass + pt atom.getSymbol)
              + roundBinary64 ((atom.getTotalNumHs : ℚ) * pt "H"))) 0 + pt "H")
          else mol.atoms.foldl (fun mass atom =>
            roundBinary64 (roundBinary64 (mass + pt atom.getSymbol)
              + roundBinary64 ((atom.getTotalNumHs : ℚ) * pt "H"))) 0 := by
  unfold getMonoIsotopicMass_binary64
  simp only [foldl_finRange_atoms mol (fun mass atom =>
    roundBinary64 (roundBinary64 (mass + pt atom.getSymbol)
      + roundBinary64 ((atom.getTotalNumHs : ℚ) * pt "H"))) 0]

theorem getMonoIsotopicMass_binary64_bareCarbon :
    getMonoIsotopicMass_binary64 sampleTable64 bareCarbon false = 12
      ∧ getMonoIsotopicMass_binary64 sampleTable64 bareCarbon true
          = 7322754495916383 / 2 ^ 49 := by
  have hfalse : getMonoIsotopicMass_binary64 sampleTable64 bareCarbon false = 12 := by
    rw [getMonoIsotopicMass_binary64_eq]
    simp only [bareCarbon, List.foldl_cons, List.foldl_nil, sampleTable64_C, Nat.cast_zero,
      zero_mul, zero_add, add_zero, roundBinary64_zero, roundBinary64_twelve,
      Bool.false_eq_true, if_false]
  refine ⟨hfalse, ?_⟩
  rw [getMonoIsotopicMass_binary64_eq]
  simp only [bareCarbon, List.foldl_cons, List.foldl_nil, sampleTable64_C, Nat.cast_zero,
    zero_mul, zero_add, add_zero, roundBinary64_zero, roundBinary64_twelve, if_true,
    sampleTable64_H, roundBinary64_twelve_add_H]

/-! ### Lemmas on the theta storage -/

namespace FragmentTreeNode

theorem length_vector_resize (v : List ℚ) (n : Nat) : (vector_resize v n).length = n := by
  simp only [vector_resize, List.length_append, List.length_take, List.length_replicate]
  omega

theorem tmp_thetas_setTmpTheta (node : FragmentTreeNode) (val : ℚ) (energy : Nat) :
    (node.setTmpTheta val energy).tmp_thetas
      = (if node.tmp_thetas.length < energy + 1
          then vector_resize node.tmp_thetas (energy + 1)
          else node.tmp_thetas).set energy val := by
  cases node; rfl

theorem length_setTmpTheta (node : FragmentTreeNode) (val : ℚ) (energy : Nat) :
    (node.setTmpTheta val energy).tmp_thetas.length
      = max node.tmp_thetas.length (energy + 1) := by
  rw [tmp_thetas_setTmpTheta, List.length_set]
  split
  · next h => rw [length_vector_resize]; exact (max_eq_right (le_of_lt h)).symm
  · next h => exact (max_eq_left (not_lt.mp h)).symm

theorem fields_setTmpTheta (node : FragmentTreeNode) (val : ℚ) (energy : Nat) :
    (node.setTmpTheta val energy).children = node.children
      ∧ (node.setTmpTheta val energy).ion = node.ion
      ∧ (node.setTmpTheta val energy).nl = node.nl
      ∧ (node.setTmpTheta val energy).ion_free_epairs = node.ion_free_epairs
      ∧ (node.setTmpTheta val energy).depth = node.depth := by
  cases node; exact ⟨rfl, rfl, rfl, rfl, rfl⟩

theorem setTmpThetas_nil (node : FragmentTreeNode) : node.setTmpThetas [] = node := rfl

theorem setTmpThetas_cons (node : FragmentTreeNode) (call : ℚ × Nat)
    (calls : List (ℚ × Nat)) :
    node.setTmpThetas (call :: calls)
      = (node.setTmpTheta call.1 call.2).setTmpThetas calls := rfl

theorem fields_setTmpThetas (calls : List (ℚ × Nat)) (node : FragmentTreeNode) :
    (node.setTmpThetas calls).children = node.children
      ∧ (node.setTmpThetas calls).ion = node.ion
      ∧ (node.setTmpThetas calls).nl = node.nl
      ∧ (node.setTmpThetas calls).ion_free_epairs = node.ion_free_epairs
      ∧ (node.setTmpThetas calls).depth = node.depth := by
  induction calls generalizing node with
  | nil => exact ⟨rfl, rfl, rfl, rfl, rfl⟩
  | cons call calls ih =>
    rw [setTmpThetas_cons]
    obtain ⟨h1, h2, h3, h4, h5⟩ := ih (node.setTmpTheta call.1 call.2)
    obtain ⟨g1, g2, g3, g4, g5⟩ := fields_setTmpTheta node call.1 call.2
    exact ⟨h1.trans g1, h2.trans g2, h3.trans g3, h4.trans g4, h5.trans g5⟩

theorem length_le_setTmpThetas (calls : List (ℚ × Nat)) (node : FragmentTreeNode) :
    node.tmp_thetas.length ≤ (node.setTmpThetas calls).tmp_thetas.length := by
  induction calls generalizing node with
  | nil => exact le_refl _
  | cons call calls ih =>
    rw [setTmpThetas_cons]
    refine le_trans ?_ (ih _)
    rw [length_setTmpTheta]
    exact le_max_left _ _

theorem length_setTmpThetas_le (calls : List (ℚ × Nat)) (node : FragmentTreeNode)
    (bound : Nat) (hnode : node.tmp_thetas.length ≤ bound)
    (hcalls : ∀ call ∈ calls, call.2 < bound) :
    (node.setTmpThetas calls).tmp_thetas.length ≤ bound := by
  induction calls generalizing node with
  | nil => exact hnode
  | cons call calls ih =>
    rw [setTmpThetas_cons]
    apply ih
    · rw [length_setTmpTheta]
      exact max_le hnode (hcalls call (List.mem_cons_self _ _))
    · intro c hc
      exact hcalls c (List.mem_cons_of_mem _ hc)

theorem getElem?_vector_resize (v : List ℚ) (n k : Nat) :
    (vector_resize v n)[k]? = if k < n then some (v[k]?.getD 0) else none := by
  unfold vector_resize
  by_cases hk : k < n
  · simp only [hk, if_true]
    by_cases hl : k < v.length
    · rw [List.getElem?_append_left (by simp; omega)]
      simp [List.getElem?_take, hk, hl]
    · have hlen : (v.take n).length ≤ k := by simp; omega
      rw [List.getElem?_append_right hlen, List.getElem?_eq_none (not_lt.mp hl)]
      have h2 : k - (List.take n v).length < n - v.length := by
        simp only [List.length_take]; omega
      rw [List.getElem?_replicate, if_pos h2]
      rfl
  · simp only [hk, if_false]
    apply List.getElem?_eq_none
    simp; omega

theorem getTmpTheta_after_set (node : FragmentTreeNode) (val : ℚ) (e k : Nat) :
    (node.setTmpTheta val e).getTmpTheta k
      = if k = e then some val
        else if k < max node.tmp_thetas.length (e + 1)
          then some (node.tmp_thetas[k]?.getD 0) else none := by
  by_cases hke : k = e
  · subst hke
    have hlen : k < (node.setTmpTheta val k).tmp_thetas.length := by
      rw [length_setTmpTheta]
      exact lt_of_lt_of_le (Nat.lt_succ_self k) (le_max_right _ _)
    rw [tmp_thetas_setTmpTheta, List.length_set] at hlen
    rw [if_pos rfl, getTmpTheta, tmp_thetas_setTmpTheta, List.getElem?_set_self hlen]
  · rw [if_neg hke, getTmpTheta, tmp_thetas_setTmpTheta,
      List.getElem?_set_ne (fun h => hke h.symm)]
    by_cases hlt : node.tmp_thetas.length < e + 1
    · rw [if_pos hlt, getElem?_vector_resize, max_eq_right (le_of_lt hlt)]
    · rw [if_neg hlt, max_eq_left (not_lt.mp hlt)]
      by_cases hk : k < node.tmp_thetas.length
      · rw [if_pos hk, List.getElem?_eq_getElem hk]
        rfl
      · rw [if_neg hk]
        exact List.getElem?_eq_none (not_lt.mp hk)

theorem zero_of_never_set (calls : List (ℚ × Nat)) (node : FragmentTreeNode) (k : Nat)
    (hnode : ∀ x, node.getTmpTheta k = some x → x = 0)
    (hnever : ∀ call ∈ calls, call.2 ≠ k) :
    ∀ x, (node.setTmpThetas calls).getTmpTheta k = some x → x = 0 := by
  induction calls generalizing node with
  | nil => exact hnode
  | cons call calls ih =>
    rw [setTmpThetas_cons]
    apply ih
    · intro x hx
      have hne : k ≠ call.2 := fun h => hnever call (List.mem_cons_self _ _) h.symm
      rw [getTmpTheta_after_set, if_neg hne] at hx
      split at hx
      · cases hold : node.tmp_thetas[k]? with
        | none =>
          rw [hold] at hx
          exact (Option.some.inj hx).symm
        | some y =>
          rw [hold] at hx
          have hy : y = 0 := hnode y hold
          rw [← Option.some.inj hx]
          exact hy
      · exact absurd hx (by simp)
    · intro c hc
      exact hnever c (List.mem_cons_of_mem _ hc)

theorem tmp_thetas_of_constructed (node : FragmentTreeNode) (h : Constructed node) :
    node.tmp_thetas = [] := by
  cases h <;> rfl

end FragmentTreeNode

/-! ### Claims on Util.cpp -/

/-- C1: over exact numbers `getMassTol abs_tol ppm_tol mass` is
`max abs_tol (mass * ppm_tol / 1e6)`; in particular `getMassTol 0.01 5 1000000 = 5` and
`getMassTol 10 5 100 = 10`. -/
theorem getMassTol_eq_max :
    (∀ abs_tol ppm_tol mass : ℚ,
      getMassTol abs_tol ppm_tol mass = max abs_tol (mass * ppm_tol / 1000000))
    ∧ getMassTol 0.01 5 1000000 = 5 ∧ getMassTol 10 5 100 = 10 := by
  have key : ∀ abs_tol ppm_tol mass : ℚ,
      getMassTol abs_tol ppm_tol mass = max abs_tol (mass * ppm_tol / 1000000) := by
    intro abs_tol ppm_tol mass
    have e : mass / 1000000 * ppm_tol = mass * ppm_tol / 1000000 := by ring
    simp only [getMassTol, e]
    split
    · next h => exact (max_eq_left (le_of_lt h)).symm
    · next h => exact (max_eq_right (not_lt.mp h)).symm
  refine ⟨key, ?_, ?_⟩
  · rw [key]; norm_num
  · rw [key]; norm_num

/-- C2 (as amended): for every structure and flag, `getMonoIsotopicMass` is the sum over
the atoms of the atom's most-common-isotope mass plus its hydrogen count times the
hydrogen isotope mass, plus, when `addHPlus` is true, one more hydrogen isotope mass
`pt "H"` (and nothing when it is false). -/
theorem getMonoIsotopicMass_spec_with_hydrogen_mass (pt : PeriodicTable) (mol : ROMol)
    (addHPlus : Bool) :
    getMonoIsotopicMass pt mol addHPlus = specMonoIsotopicMass pt (pt "H") mol addHPlus := by
  rw [getMonoIsotopicMass_eq_sum, specMonoIsotopicMass]

/-- C2 (counterexample): for methane with `addHPlus` true the code does not return the
atoms' sum plus the proton mass: it adds the hydrogen atom mass instead. -/
theorem getMonoIsotopicMass_not_proton_mass :
    getMonoIsotopicMass sampleTable methane true
      ≠ specMonoIsotopicMass sampleTable protonMass methane true := by
  rw [getMonoIsotopicMass_eq_sum]
  simp only [specMonoIsotopicMass, if_true]
  intro h
  have h2 := add_left_cancel h
  revert h2
  simp only [sampleTable, protonMass, if_true]
  norm_num

/-- C3 (as amended): on a structure of exactly one atom that carries no hydrogens and
whose symbol has isotope mass `m`, `getMonoIsotopicMass mol false` returns `m`. -/
theorem getMonoIsotopicMass_single_atom (pt : PeriodicTable) (a : Atom) (m : ℚ)
    (hm : pt a.getSymbol = m) (hH : a.getTotalNumHs = 0) :
    getMonoIsotopicMass pt { atoms := [a] } false = m := by
  rw [getMonoIsotopicMass_eq_sum]
  simp [atomMass, hm, hH]

/-- C3 (witness): a bare carbon atom has mass 12. -/
theorem getMonoIsotopicMass_single_atom_witness :
    getMonoIsotopicMass sampleTable
      { atoms := [{ getSymbol := "C", getTotalNumHs := 0 }] } false = 12 :=
  getMonoIsotopicMass_single_atom sampleTable { getSymbol := "C", getTotalNumHs := 0 } 12
    (by simp [sampleTable]) rfl

/-- C3 (counterexample): methane is a structure of exactly one atom, carbon, whose
isotope mass is 12, and its monoisotopic mass is not 12. -/
theorem getMonoIsotopicMass_single_atom_with_hydrogens :
    methane.getNumAtoms = 1 ∧ sampleTable "C" = 12
      ∧ getMonoIsotopicMass sampleTable methane false ≠ 12 := by
  refine ⟨rfl, by simp [sampleTable], ?_⟩
  rw [getMonoIsotopicMass_eq_sum]
  simp [methane, atomMass, sampleTable]
  norm_num

/-! ### Claims on FragmentTreeNode.h -/

namespace FragmentTreeNode

/-- C4: theta round trip. On a node in any state, for every value `v` and every energy
`e >= 0`, `setTmpTheta(v, e)` followed by `getTmpTheta(e)` is an in-range read that returns
`v`; applied to the last of two writes to one level, the last write wins. -/
theorem getTmpTheta_setTmpTheta (node : FragmentTreeNode) (v : ℚ) (e : Nat) :
    (node.setTmpTheta v e).getTmpTheta e = some v := by
  have hlen : e < (node.setTmpTheta v e).tmp_thetas.length := by
    rw [length_setTmpTheta]
    exact lt_of_lt_of_le (Nat.lt_succ_self e) (le_max_right _ _)
  rw [tmp_thetas_setTmpTheta, List.length_set] at hlen
  rw [getTmpTheta, tmp_thetas_setTmpTheta, List.getElem?_set_self hlen]

/-- C5: `hasTmpThetas()` reports whether any value has ever been set. On a node that comes
out of any of the three constructors followed by a run of `setTmpTheta` calls
(energies `>= 0`), it is true exactly when the run is non-empty; in particular it is
false before any call. Once true on a node it stays true under further calls. -/
theorem hasTmpThetas_iff_set :
    (∀ node, Constructed node → ∀ calls : List (ℚ × Nat),
        ((node.setTmpThetas calls).hasTmpThetas = true ↔ calls ≠ []))
    ∧ (∀ node, Constructed node → node.hasTmpThetas = false)
    ∧ (∀ (node : FragmentTreeNode) (calls : List (ℚ × Nat)),
        node.hasTmpThetas = true → (node.setTmpThetas calls).hasTmpThetas = true) := by
  have hset : ∀ (node : FragmentTreeNode) (v : ℚ) (e : Nat),
      0 < (node.setTmpTheta v e).tmp_thetas.length := by
    intro node v e
    rw [length_setTmpTheta]
    exact lt_of_lt_of_le (Nat.succ_pos e) (le_max_right _ _)
  refine ⟨?_, ?_, ?_⟩
  · intro node hnode calls
    cases calls with
    | nil =>
      simp [setTmpThetas_nil, hasTmpThetas, tmp_thetas_of_constructed node hnode]
    | cons call calls =>
      simp only [hasTmpThetas, decide_eq_true_eq, ne_eq, not_false_eq_true, iff_true,
        reduceCtorEq, gt_iff_lt]
      rw [setTmpThetas_cons]
      exact lt_of_lt_of_le (hset node call.1 call.2) (length_le_setTmpThetas calls _)
  · intro node hnode
    simp [hasTmpThetas, tmp_thetas_of_constructed node hnode]
  · intro node calls h
    simp only [hasTmpThetas, decide_eq_true_eq, gt_iff_lt] at h ⊢
    exact lt_of_lt_of_le h (length_le_setTmpThetas calls node)

/-- C5 (witness): a default-constructed node has no thetas, and has some after
`setTmpTheta(2, 3)`, also after a further `setTmpTheta(7, 0)`. -/
theorem hasTmpThetas_iff_set_witness :
    (ctor_default 0 0).hasTmpThetas = false
    ∧ (((ctor_default 0 0).setTmpThetas [(2, 3)]).hasTmpThetas = true ↔ [((2 : ℚ), 3)] ≠ [])
    ∧ (((ctor_default 0 0).setTmpTheta 2 3).setTmpThetas [(7, 0)]).hasTmpThetas = true :=
  ⟨hasTmpThetas_iff_set.2.1 _ (Constructed.default 0 0),
   hasTmpThetas_iff_set.1 _ (Constructed.default 0 0) [(2, 3)],
   hasTmpThetas_iff_set.2.2 ((ctor_default 0 0).setTmpTheta 2 3) [(7, 0)] (by decide)⟩

/-- C6: for every node and every energy `e >= 0`, after `setTmpTheta(v, e)` the backing
sequence has length exactly `max (old length) (e + 1)`: grown to `e + 1` entries when it
was shorter, and of unchanged length when it was already that long. -/
theorem setTmpTheta_length (node : FragmentTreeNode) (v : ℚ) (e : Nat) :
    (node.setTmpTheta v e).getAllTmpThetas.length
        = max node.getAllTmpThetas.length (e + 1)
      ∧ (node.getAllTmpThetas.length < e + 1 →
          (node.setTmpTheta v e).getAllTmpThetas.length = e + 1)
      ∧ (e + 1 ≤ node.getAllTmpThetas.length →
          (node.setTmpTheta v e).getAllTmpThetas.length = node.getAllTmpThetas.length) := by
  simp only [getAllTmpThetas, length_setTmpTheta]
  refine ⟨trivial, ?_, ?_⟩
  · intro h; exact max_eq_right (le_of_lt h)
  · intro h; exact max_eq_left h

/-- C6 (witness): on a node holding four entries, `setTmpTheta(1, 5)` gives six entries and
`setTmpTheta(1, 1)` leaves four. -/
theorem setTmpTheta_length_witness :
    (((ctor_default 0 0).setTmpTheta 9 3).getAllTmpThetas.length < 5 + 1 →
      (((ctor_default 0 0).setTmpTheta 9 3).setTmpTheta 1 5).getAllTmpThetas.length = 5 + 1)
    ∧ (1 + 1 ≤ ((ctor_default 0 0).setTmpTheta 9 3).getAllTmpThetas.length →
      (((ctor_default 0 0).setTmpTheta 9 3).setTmpTheta 1 1).getAllTmpThetas.length
        = ((ctor_default 0 0).setTmpTheta 9 3).getAllTmpThetas.length) :=
  ⟨(setTmpTheta_length ((ctor_default 0 0).setTmpTheta 9 3) 1 5).2.1,
   (setTmpTheta_length ((ctor_default 0 0).setTmpTheta 9 3) 1 1).2.2⟩

/-- C7 (as amended): on a node that comes out of a constructor followed by a run of
`setTmpTheta` calls, for every energy `e >= 0` above every energy of the run (no call
was made at level `e` or at a higher level), `getTmpTheta(e)` is an out-of-range access:
`e` is not below the length of the backing sequence. -/
theorem getTmpTheta_out_of_range (node : FragmentTreeNode) (hnode : Constructed node)
    (calls : List (ℚ × Nat)) (e : Nat) (hcalls : ∀ call ∈ calls, call.2 < e) :
    ¬ (e < (node.setTmpThetas calls).getAllTmpThetas.length)
      ∧ (node.setTmpThetas calls).getTmpTheta e = none := by
  have hle : (node.setTmpThetas calls).tmp_thetas.length ≤ e := by
    apply length_setTmpThetas_le calls node e _ hcalls
    rw [tmp_thetas_of_constructed node hnode]
    exact Nat.zero_le e
  refine ⟨not_lt.mpr hle, ?_⟩
  rw [getTmpTheta]
  exact List.getElem?_eq_none hle

/-- C7 (witness): after `setTmpTheta(1, 5)` on a fresh node, level 6 is out of range. -/
theorem getTmpTheta_out_of_range_witness :
    ¬ (6 < ((ctor_default 0 0).setTmpThetas [(1, 5)]).getAllTmpThetas.length)
      ∧ ((ctor_default 0 0).setTmpThetas [(1, 5)]).getTmpTheta 6 = none :=
  getTmpTheta_out_of_range (ctor_default 0 0) (Constructed.default 0 0) [(1, 5)] 6
    (by decide)

/-- C7 (counterexample): after `setTmpTheta(1, 5)` on a fresh node, `setTmpTheta` has never
been called for level 3, yet 3 is below the length of the backing sequence and
`getTmpTheta(3)` is an in-range read. -/
theorem getTmpTheta_unset_in_range :
    Constructed (ctor_default 0 0)
      ∧ 3 ∉ [((1 : ℚ), 5)].map Prod.snd
      ∧ 3 < ((ctor_default 0 0).setTmpThetas [(1, 5)]).getAllTmpThetas.length
      ∧ ((ctor_default 0 0).setTmpThetas [(1, 5)]).getTmpTheta 3 = some 0 := by
  refine ⟨Constructed.default 0 0, by decide, by decide, rfl⟩

/-- C8: a freshly constructed node has no children. For every `ion`, `nl`,
`a_ion_free_ep` and `a_depth`, the four-argument and the three-argument constructor both
give a node with empty `children`, `ion_free_epairs = a_ion_free_ep`, `depth = a_depth`
and `ion` the given ion; the three-argument (root) form leaves `nl` absent and the
four-argument form stores the given `nl`. -/
theorem constructed_fields (an_ion a_nl : romol_ptr_t) (a_ion_free_ep a_depth : Int) :
    ((ctor_ion_nl an_ion a_nl a_ion_free_ep a_depth).children = []
      ∧ (ctor_ion_nl an_ion a_nl a_ion_free_ep a_depth).ion_free_epairs = a_ion_free_ep
      ∧ (ctor_ion_nl an_ion a_nl a_ion_free_ep a_depth).depth = a_depth
      ∧ (ctor_ion_nl an_ion a_nl a_ion_free_ep a_depth).ion = an_ion
      ∧ (ctor_ion_nl an_ion a_nl a_ion_free_ep a_depth).nl = a_nl)
    ∧ ((ctor_ion an_ion a_ion_free_ep a_depth).children = []
      ∧ (ctor_ion an_ion a_ion_free_ep a_depth).ion_free_epairs = a_ion_free_ep
      ∧ (ctor_ion an_ion a_ion_free_ep a_depth).depth = a_depth
      ∧ (ctor_ion an_ion a_ion_free_ep a_depth).ion = an_ion
      ∧ (ctor_ion an_ion a_ion_free_ep a_depth).nl = none) :=
  ⟨⟨rfl, rfl, rfl, rfl, rfl⟩, ⟨rfl, rfl, rfl, rfl, rfl⟩⟩

/-- C9 (as amended): a node built by the four- or the three-argument constructor from a
non-null ion and non-negative `a_ion_free_ep` and `a_depth` has, also after any run of
`setTmpTheta` calls, a present ion and non-negative `ion_free_epairs` and `depth`. -/
theorem node_invariant_of_valid_arguments (an_ion a_nl : romol_ptr_t)
    (a_ion_free_ep a_depth : Int) (calls : List (ℚ × Nat))
    (hion : an_ion ≠ none) (hep : 0 ≤ a_ion_free_ep) (hdepth : 0 ≤ a_depth) :
    (((ctor_ion_nl an_ion a_nl a_ion_free_ep a_depth).setTmpThetas calls).ion ≠ none
      ∧ 0 ≤ ((ctor_ion_nl an_ion a_nl a_ion_free_ep a_depth).setTmpThetas calls).ion_free_epairs
      ∧ 0 ≤ ((ctor_ion_nl an_ion a_nl a_ion_free_ep a_depth).setTmpThetas calls).depth)
    ∧ (((ctor_ion an_ion a_ion_free_ep a_depth).setTmpThetas calls).ion ≠ none
      ∧ 0 ≤ ((ctor_ion an_ion a_ion_free_ep a_depth).setTmpThetas calls).ion_free_epairs
      ∧ 0 ≤ ((ctor_ion an_ion a_ion_free_ep a_depth).setTmpThetas calls).depth) := by
  obtain ⟨-, h2, -, h4, h5⟩ :=
    fields_setTmpThetas calls (ctor_ion_nl an_ion a_nl a_ion_free_ep a_depth)
  obtain ⟨-, g2, -, g4, g5⟩ :=
    fields_setTmpThetas calls (ctor_ion an_ion a_ion_free_ep a_depth)
  rw [h2, h4, h5, g2, g4, g5]
  exact ⟨⟨hion, hep, hdepth⟩, ⟨hion, hep, hdepth⟩⟩

/-- C9 (witness): the root node of methane with two free electron pairs at depth 0, after
`setTmpTheta(1, 3)`. -/
theorem node_invariant_of_valid_arguments_witness :
    (((ctor_ion_nl (some methane) none 2 0).setTmpThetas [(1, 3)]).ion ≠ none
      ∧ 0 ≤ ((ctor_ion_nl (some methane) none 2 0).setTmpThetas [(1, 3)]).ion_free_epairs
      ∧ 0 ≤ ((ctor_ion_nl (some methane) none 2 0).setTmpThetas [(1, 3)]).depth)
    ∧ (((ctor_ion (some methane) 2 0).setTmpThetas [(1, 3)]).ion ≠ none
      ∧ 0 ≤ ((ctor_ion (some methane) 2 0).setTmpThetas [(1, 3)]).ion_free_epairs
      ∧ 0 ≤ ((ctor_ion (some methane) 2 0).setTmpThetas [(1, 3)]).depth) :=
  node_invariant_of_valid_arguments (some methane) none 2 0 [(1, 3)]
    (by simp) (by decide) (by decide)

/-- C9 (counterexample): the default constructor gives a node whose ion is null, and the
three-argument constructor called with `-1` and `-2` gives a node with negative
`ion_free_epairs` and `depth`; a `setTmpTheta` call changes none of it. -/
theorem node_invariant_fails :
    Constructed (ctor_default 0 0)
      ∧ ((ctor_default 0 0).setTmpThetas [(1, 3)]).ion = none
      ∧ Constructed (ctor_ion (some methane) (-1) (-2))
      ∧ ((ctor_ion (some methane) (-1) (-2)).setTmpThetas [(1, 3)]).ion_free_epairs < 0
      ∧ ((ctor_ion (some methane) (-1) (-2)).setTmpThetas [(1, 3)]).depth < 0 :=
  ⟨Constructed.default 0 0, rfl, Constructed.ion (some methane) (-1) (-2),
    by decide, by decide⟩

end FragmentTreeNode

/-- C10: a `Break` is fixed by its construction form. For every bond index `b`, `Break(b)`
has `isRingBreak() == false` and `getBondIdx() == b`; for every `b1`, `b2` and `r`,
`Break(b1, b2, r)` has `isRingBreak() == true`, `getBondIdx() == b1`,
`getSecondBondIdx() == b2` and `getRingIdx() == r`; every accessor leaves the `Break` it
is called on unchanged. -/
theorem break_accessors :
    (∀ b unused_bond unused_ring : Int,
        ((Break.ctor_bond b unused_bond unused_ring).isRingBreak).1 = boolToInt false
      ∧ ((Break.ctor_bond b unused_bond unused_ring).getBondIdx).1 = b)
    ∧ (∀ b1 b2 r : Int,
        ((Break.ctor_ring b1 b2 r).isRingBreak).1 = boolToInt true
      ∧ ((Break.ctor_ring b1 b2 r).getBondIdx).1 = b1
      ∧ ((Break.ctor_ring b1 b2 r).getSecondBondIdx).1 = b2
      ∧ ((Break.ctor_ring b1 b2 r).getRingIdx).1 = r)
    ∧ (∀ brk : Break,
        (brk.getBondIdx).2 = brk ∧ (brk.getSecondBondIdx).2 = brk
      ∧ (brk.isRingBreak).2 = brk ∧ (brk.getRingIdx).2 = brk) :=
  ⟨fun _ _ _ => ⟨rfl, rfl⟩, fun _ _ _ => ⟨rfl, rfl, rfl, rfl⟩,
    fun _ => ⟨rfl, rfl, rfl, rfl⟩⟩

/-! ### Further claims on the theta storage -/

namespace FragmentTreeNode

/-- C13: frame property of `setTmpTheta`. For every node, value `v` and energy `e >= 0`,
`setTmpTheta(v, e)` leaves the value at every index `k != e` below the old sequence
length unchanged and leaves `children`, `ion`, `nl`, `ion_free_epairs` and `depth`
unchanged; hence for `e1 != e2`, after `setTmpTheta(v1, e1); setTmpTheta(v2, e2)`,
`getTmpTheta(e1)` returns `v1`, whichever of `e1`, `e2` is larger. -/
theorem setTmpTheta_frame (node : FragmentTreeNode) :
    (∀ (v : ℚ) (e k : Nat), k ≠ e → k < node.getAllTmpThetas.length →
        (node.setTmpTheta v e).getTmpTheta k = node.getTmpTheta k)
    ∧ (∀ (v : ℚ) (e : Nat),
        (node.setTmpTheta v e).children = node.children
      ∧ (node.setTmpTheta v e).ion = node.ion
      ∧ (node.setTmpTheta v e).nl = node.nl
      ∧ (node.setTmpTheta v e).ion_free_epairs = node.ion_free_epairs
      ∧ (node.setTmpTheta v e).depth = node.depth)
    ∧ (∀ (v1 v2 : ℚ) (e1 e2 : Nat), e1 ≠ e2 →
        ((node.setTmpTheta v1 e1).setTmpTheta v2 e2).getTmpTheta e1 = some v1) := by
  refine ⟨?_, fun v e => fields_setTmpTheta node v e, ?_⟩
  · intro v e k hke hk
    have hk1 : k < node.tmp_thetas.length := hk
    have hk2 : k < max node.tmp_thetas.length (e + 1) :=
      lt_of_lt_of_le hk1 (le_max_left _ _)
    rw [getTmpTheta_after_set, if_neg hke, if_pos hk2, getTmpTheta,
      List.getElem?_eq_getElem hk1]
    rfl
  · intro v1 v2 e1 e2 hne
    have hlen : e1 < (node.setTmpTheta v1 e1).tmp_thetas.length := by
      rw [length_setTmpTheta]
      exact lt_of_lt_of_le (Nat.lt_succ_self e1) (le_max_right _ _)
    have hk2 : e1 < max (node.setTmpTheta v1 e1).tmp_thetas.length (e2 + 1) :=
      lt_of_lt_of_le hlen (le_max_left _ _)
    have hself : (node.setTmpTheta v1 e1).tmp_thetas[e1]? = some v1 := by
      have h := getTmpTheta_after_set node v1 e1 e1
      rw [if_pos rfl] at h
      exact h
    rw [getTmpTheta_after_set, if_neg hne, if_pos hk2, hself]
    rfl

/-- C13 (witness): on a node holding four entries, writing level 1 keeps level 3, and
writing levels 5 then 2 (or 2 then 5) keeps the first write. -/
theorem setTmpTheta_frame_witness :
    (((ctor_default 0 0).setTmpTheta 9 3).setTmpTheta 4 1).getTmpTheta 3
        = ((ctor_default 0 0).setTmpTheta 9 3).getTmpTheta 3
    ∧ (((ctor_default 0 0).setTmpTheta 7 5).setTmpTheta 8 2).getTmpTheta 5 = some 7
    ∧ (((ctor_default 0 0).setTmpTheta 7 2).setTmpTheta 8 5).getTmpTheta 2 = some 7 :=
  ⟨(setTmpTheta_frame ((ctor_default 0 0).setTmpTheta 9 3)).1 4 1 3 (by decide) (by decide),
   (setTmpTheta_frame (ctor_default 0 0)).2.2 7 8 5 2 (by decide),
   (setTmpTheta_frame (ctor_default 0 0)).2.2 7 8 2 5 (by decide)⟩

/-- C14: on a node that comes out of a constructor followed by a run of `setTmpTheta`
calls (energies `>= 0`), for every index `k` below the sequence length at which
`setTmpTheta` was never called, `getTmpTheta(k)` is an in-range read that returns `0.0`;
such a level cannot be told apart from one explicitly set to `0.0`, since setting it to
`0.0` leaves the whole sequence as it is. -/
theorem getTmpTheta_never_set (node : FragmentTreeNode) (hnode : Constructed node)
    (calls : List (ℚ × Nat)) (k : Nat)
    (hk : k < (node.setTmpThetas calls).getAllTmpThetas.length)
    (hnever : ∀ call ∈ calls, call.2 ≠ k) :
    (node.setTmpThetas calls).getTmpTheta k = some 0
      ∧ ((node.setTmpThetas calls).setTmpTheta 0 k).getTmpTheta k
          = (node.setTmpThetas calls).getTmpTheta k
      ∧ ((node.setTmpThetas calls).setTmpTheta 0 k).getAllTmpThetas
          = (node.setTmpThetas calls).getAllTmpThetas := by
  have hzero : ∀ x, (node.setTmpThetas calls).getTmpTheta k = some x → x = 0 := by
    apply zero_of_never_set calls node k _ hnever
    intro x hx
    rw [getTmpTheta, tmp_thetas_of_constructed node hnode] at hx
    exact absurd hx (by simp)
  have hk : k < (node.setTmpThetas calls).tmp_thetas.length := hk
  have hget : (node.setTmpThetas calls).getTmpTheta k = some 0 := by
    have h := List.getElem?_eq_getElem hk
    rw [getTmpTheta, h, hzero _ h]
  have hself : ((node.setTmpThetas calls).setTmpTheta 0 k).getTmpTheta k = some 0 := by
    rw [getTmpTheta_after_set, if_pos rfl]
  refine ⟨hget, hself.trans hget.symm, ?_⟩
  apply List.ext_getElem?
  intro i
  have h := getTmpTheta_after_set (node.setTmpThetas calls) 0 k i
  simp only [getTmpTheta] at h hget
  simp only [getAllTmpThetas]
  rw [h]
  by_cases hik : i = k
  · rw [if_pos hik, hik, hget]
  · have hmax : max (node.setTmpThetas calls).tmp_thetas.length (k + 1)
        = (node.setTmpThetas calls).tmp_thetas.length := max_eq_left hk
    rw [if_neg hik, hmax]
    by_cases hi : i < (node.setTmpThetas calls).tmp_thetas.length
    · rw [if_pos hi, List.getElem?_eq_getElem hi]
      rfl
    · rw [if_neg hi]
      exact (List.getElem?_eq_none (not_lt.mp hi)).symm

/-- C14 (witness): after `setTmpTheta(1, 5)` on a fresh node, the never-set level 3 reads
`0.0`, and setting it to `0.0` changes nothing. -/
theorem getTmpTheta_never_set_witness :
    ((ctor_default 0 0).setTmpThetas [(1, 5)]).getTmpTheta 3 = some 0
      ∧ (((ctor_default 0 0).setTmpThetas [(1, 5)]).setTmpTheta 0 3).getTmpTheta 3
          = ((ctor_default 0 0).setTmpThetas [(1, 5)]).getTmpTheta 3
      ∧ (((ctor_default 0 0).setTmpThetas [(1, 5)]).setTmpTheta 0 3).getAllTmpThetas
          = ((ctor_default 0 0).setTmpThetas [(1, 5)]).getAllTmpThetas :=
  getTmpTheta_never_set (ctor_default 0 0) (Constructed.default 0 0) [(1, 5)] 3
    (by decide) (by decide)

end FragmentTreeNode

/-! ### Further claims on the monoisotopic mass -/

/-- C15: `getMonoIsotopicMass` is additive over atoms. For a structure whose atoms are, in
symbols and total hydrogen counts, those of a structure `A` followed by those of a
structure `B`, the mass without the added proton is the sum of the two masses; the
empty structure has mass 0; and the mass does not depend on the order of the atoms. -/
theorem getMonoIsotopicMass_additive (pt : PeriodicTable) :
    (∀ mol A B : ROMol,
        mol.atoms.map Atom.formula = A.atoms.map Atom.formula ++ B.atoms.map Atom.formula →
        getMonoIsotopicMass pt mol false
          = getMonoIsotopicMass pt A false + getMonoIsotopicMass pt B false)
    ∧ (∀ mol : ROMol, mol.atoms = [] → getMonoIsotopicMass pt mol false = 0)
    ∧ (∀ mol1 mol2 : ROMol,
        (mol1.atoms.map Atom.formula).Perm (mol2.atoms.map Atom.formula) →
        getMonoIsotopicMass pt mol1 false = getMonoIsotopicMass pt mol2 false) := by
  refine ⟨?_, ?_, ?_⟩
  · intro mol A B h
    simp only [getMonoIsotopicMass_eq_sum, sum_atomMass_eq_formula, h, List.map_append,
      List.sum_append]
    simp
  · intro mol h
    simp [getMonoIsotopicMass_eq_sum, h]
  · intro mol1 mol2 h
    simp only [getMonoIsotopicMass_eq_sum, sum_atomMass_eq_formula]
    rw [(h.map _).sum_eq]

/-- C15 (witness): ethane as two methyl carbons weighs what its two halves weigh, in
either order of the atoms. -/
theorem getMonoIsotopicMass_additive_witness :
    getMonoIsotopicMass sampleTable
        { atoms := [{ getSymbol := "C", getTotalNumHs := 3 },
                    { getSymbol := "H", getTotalNumHs := 0 }] } false
      = getMonoIsotopicMass sampleTable
          { atoms := [{ getSymbol := "C", getTotalNumHs := 3 }] } false
        + getMonoIsotopicMass sampleTable
          { atoms := [{ getSymbol := "H", getTotalNumHs := 0 }] } false
    ∧ getMonoIsotopicMass sampleTable
        { atoms := [{ getSymbol := "C", getTotalNumHs := 3 },
                    { getSymbol := "H", getTotalNumHs := 0 }] } false
      = getMonoIsotopicMass sampleTable
        { atoms := [{ getSymbol := "H", getTotalNumHs := 0 },
                    { getSymbol := "C", getTotalNumHs := 3 }] } false :=
  ⟨(getMonoIsotopicMass_additive sampleTable).1 _ _ _ rfl,
   (getMonoIsotopicMass_additive sampleTable).2.2 _ _ (List.Perm.swap _ _ [])⟩

/-- C16 (as amended): in exact arithmetic, for every structure,
`getMonoIsotopicMass(mol, true)` exceeds `getMonoIsotopicMass(mol, false)` by exactly the
table's most-common-isotope mass of `"H"`, the constant also used for each attached
hydrogen, whatever the structure; in the arithmetic of `double`,
`getMonoIsotopicMass(mol, true)` is the binary64 value nearest to
`getMonoIsotopicMass(mol, false)` plus that constant. -/
theorem getMonoIsotopicMass_addHPlus_difference (pt : PeriodicTable) (mol : ROMol) :
    getMonoIsotopicMass pt mol true - getMonoIsotopicMass pt mol false = pt "H"
      ∧ (∀ a : Atom,
          getMonoIsotopicMass pt
              { atoms := [{ a with getTotalNumHs := a.getTotalNumHs + 1 }] } false
            - getMonoIsotopicMass pt { atoms := [a] } false = pt "H")
      ∧ getMonoIsotopicMass_binary64 pt mol true
          = roundBinary64 (getMonoIsotopicMass_binary64 pt mol false + pt "H") := by
  refine ⟨?_, ?_, ?_⟩
  · simp [getMonoIsotopicMass_eq_sum]
  · intro a
    simp only [getMonoIsotopicMass_eq_sum, atomMass, List.map_cons, List.map_nil,
      List.sum_cons, List.sum_nil, Nat.cast_add, Nat.cast_one]
    simp only [Bool.false_eq_true, if_false]
    ring
  · simp only [getMonoIsotopicMass_binary64, if_true, Bool.false_eq_true, if_false]

/-- C16 (counterexample): for a bare carbon atom, with the table entries held as doubles,
the two results computed in binary64 are `12 + 567355054860639 / 2 ^ 49` (with `addHPlus`)
and `12` (without). Their difference `567355054860639 / 2 ^ 49`, which is itself a
binary64 value and so also the difference the program would compute, is not the table's
mass of `"H"`, `4538840438885110 / 2 ^ 52`: the sum `12 + H` was rounded to the coarser
spacing of its binade. -/
theorem getMonoIsotopicMass_binary64_difference_ne_H :
    getMonoIsotopicMass_binary64 sampleTable64 bareCarbon false = 12
      ∧ getMonoIsotopicMass_binary64 sampleTable64 bareCarbon true
          = 12 + 567355054860639 / 2 ^ 49
      ∧ sampleTable64 "H" = 4538840438885110 / 2 ^ 52
      ∧ roundBinary64 (getMonoIsotopicMass_binary64 sampleTable64 bareCarbon true
            - getMonoIsotopicMass_binary64 sampleTable64 bareCarbon false)
          = 567355054860639 / 2 ^ 49
      ∧ getMonoIsotopicMass_binary64 sampleTable64 bareCarbon true
          - getMonoIsotopicMass_binary64 sampleTable64 bareCarbon false
          ≠ sampleTable64 "H" := by
  obtain ⟨hfalse, htrue⟩ := getMonoIsotopicMass_binary64_bareCarbon
  rw [hfalse, htrue, sampleTable64_H]
  refine ⟨rfl, by norm_num, rfl, ?_, by norm_num⟩
  have hdiff : (7322754495916383 / 2 ^ 49 - 12 : ℚ) = 567355054860639 / 2 ^ 49 := by
    norm_num
  rw [hdiff, roundBinary64_of_binade _ 0 (by norm_num) (by norm_num),
    roundHalfEven_of_lt_half _ 4538840438885112 (by norm_num) (by norm_num)]
  norm_num

/-! ### Claims on `getLabeledAtom` -/

namespace FragmentTreeNode

/-- C11: mutate/restore round trip. For every node and every break `brk` produced by
`generateBreaks` on it, `applyBreak(brk)` followed by `undoBreak(brk)` leaves the node,
and so its ion (bonds, atoms, all atom and bond properties set before), identical to
what it was before `applyBreak`. -/
theorem undoBreak_applyBreak (node : FragmentTreeNode) (unused : Int × Int) (brk : Break)
    (hbrk : brk ∈ node.generateBreaks [] unused) :
    (node.applyBreak brk).undoBreak brk = node
      ∧ ((node.applyBreak brk).undoBreak brk).ion = node.ion := by
  have hnode : (node.applyBreak brk).undoBreak brk = node := by
    cases node with
    | mk c ion n e d t =>
      cases ion with
      | none => rfl
      | some mol =>
        have hu := unbroken_of_mem_generateBreaks (mk c (some mol) n e d t) mol unused brk
          rfl hbrk
        simp only [applyBreak, undoBreak]
        rw [ROMol.undo_apply_eq mol brk hu]
  exact ⟨hnode, by rw [hnode]⟩

/-- C11 (witness): on the propane root node, breaking bond 1 changes the ion (the bond is
out and the atoms carry `FragIdx` labels), and undoing the break gives the node back;
the same on a propane ion one atom of which carried a property named `FragIdx` before. -/
theorem undoBreak_applyBreak_witness :
    (((ctor_ion (some propane) 2 0).applyBreak (Break.ctor_bond 1 (-1) (-1))).undoBreak
        (Break.ctor_bond 1 (-1) (-1)) = ctor_ion (some propane) 2 0
      ∧ (((ctor_ion (some propane) 2 0).applyBreak (Break.ctor_bond 1 (-1) (-1))).undoBreak
          (Break.ctor_bond 1 (-1) (-1))).ion = (ctor_ion (some propane) 2 0).ion)
    ∧ ((ctor_ion (some propane) 2 0).applyBreak (Break.ctor_bond 1 (-1) (-1))).ion
        ≠ (ctor_ion (some propane) 2 0).ion
    ∧ (((ctor_ion (some propaneLabelled) 2 0).applyBreak
          (Break.ctor_bond 0 (-1) (-1))).undoBreak (Break.ctor_bond 0 (-1) (-1))).ion
        = some propaneLabelled :=
  ⟨undoBreak_applyBreak (ctor_ion (some propane) 2 0) (-1, -1) (Break.ctor_bond 1 (-1) (-1))
      (by decide),
    by decide,
    (undoBreak_applyBreak (ctor_ion (some propaneLabelled) 2 0) (-1, -1)
      (Break.ctor_bond 0 (-1) (-1)) (by decide)).2⟩

end FragmentTreeNode

end CFM
